import Mathlib

/-!
Verification of the caption timing data model and its editing operations
(the "Caption Segment Store") together with the visible part of the RPC
bridge of the capslap repository.

Embedding conventions:
* JS numbers carrying millisecond timestamps are modeled as rationals (ℚ):
  the editing operations use only `+`, `-`, `*`, `/` on them, so ℚ captures
  the ideal arithmetic of the spec; integrality of a timestamp is the
  proposition that its denominator is 1.
* JS strings are modeled as lists of characters (`List Char`); the JS
  regular-expression class `\s` is modeled by `Char.isWhitespace`, and
  `String.prototype.trim` / `split(/\s+/)` are modeled by the executable
  functions `trimChars` / `splitWS` below.
* The React component state updates (`setSegments`) are modeled by pure
  functions from the old segment list to the new one, exactly as the spec's
  Caption Segment Store prescribes ("every operation returns a new
  sequence").
-/

/-- A single timed word, from `WordSpan` in src/unnamed/part_001. -/
structure WordSpan where
  startMs : ℚ
  endMs : ℚ
  text : List Char
deriving DecidableEq

/-- A caption segment, from `CaptionSegment` in src/unnamed/part_001. -/
structure CaptionSegment where
  startMs : ℚ
  endMs : ℚ
  text : List Char
  words : List WordSpan
deriving DecidableEq

attribute [local semireducible] Rat.add Rat.mul Rat.sub Rat.inv Rat.ofScientific

/-- Model of the JS regex class `\s` used by `split(/\s+/)`. -/
def isWS (c : Char) : Bool := c.isWhitespace

/-- Model of `String.prototype.trim`: drop whitespace from both ends. -/
def trimChars (cs : List Char) : List Char :=
  ((cs.dropWhile isWS).reverse.dropWhile isWS).reverse

/-- Split at every whitespace character, keeping empty pieces between
consecutive separators (the behavior of JS `split(/\s/)` per character). -/
def splitOnWS : List Char → List (List Char)
  | [] => [[]]
  | c :: cs =>
    if isWS c then [] :: splitOnWS cs
    else
      match splitOnWS cs with
      | [] => [[c]]
      | t :: ts => (c :: t) :: ts

/-- Model of JS `split(/\s+/)` on a trimmed string: whitespace-separated
tokens, with empty pieces removed (runs of whitespace merged). -/
def splitWS (cs : List Char) : List (List Char) :=
  (splitOnWS cs).filter (fun t => t ≠ [])

/-- `words.map(w => w.text).join(' ')` from src/unnamed/part_001. -/
def joinWords (ws : List WordSpan) : List Char :=
  List.intercalate [' '] (ws.map WordSpan.text)

/-- `moveLastWordToNext` (the spec's `shiftWordToNext`), translated from
src/unnamed/part_001 lines 115-163.  The JS guard
`index < 0 || index >= segments.length - 1` is, for a non-negative index,
exactly the failure of `index + 1 < segments.length`; the guard
`current.words.length === 0` is the `getLast? = none` branch. -/
def moveLastWordToNext (segments : List CaptionSegment) (index : Nat) :
    List CaptionSegment :=
  if h : index + 1 < segments.length then
    let current := segments[index]
    let next := segments[index + 1]
    match current.words.getLast? with
    | none => segments
    | some wordToMove =>
      let newCurrentWords := current.words.dropLast
      let newNextWords := wordToMove :: next.words
      let newCurrentEndMs :=
        match newCurrentWords.getLast? with
        | some w => w.endMs
        | none => current.startMs
      let newNextStartMs := wordToMove.startMs
      let newCurrent : CaptionSegment :=
        { current with
          words := newCurrentWords
          text := joinWords newCurrentWords
          endMs := newCurrentEndMs }
      let newNext : CaptionSegment :=
        { next with
          words := newNextWords
          text := joinWords newNextWords
          startMs := newNextStartMs }
      (segments.set index newCurrent).set (index + 1) newNext
  else segments

/-- `moveFirstWordToPrev` (the spec's `shiftWordToPrev`), translated from
src/unnamed/part_001 lines 166-206.  The JS guard
`index <= 0 || index >= segments.length` is the failure of
`0 < index ∧ index < segments.length` for a non-negative index. -/
def moveFirstWordToPrev (segments : List CaptionSegment) (index : Nat) :
    List CaptionSegment :=
  if h : 0 < index ∧ index < segments.length then
    have h2 : index < segments.length := h.2
    have h1 : index - 1 < segments.length := by omega
    let prev := segments[index - 1]
    let current := segments[index]
    match current.words with
    | [] => segments
    | wordToMove :: rest =>
      let newPrevWords := prev.words ++ [wordToMove]
      let newCurrentWords := rest
      let newPrevEndMs := wordToMove.endMs
      let newCurrentStartMs :=
        match rest.head? with
        | some w => w.startMs
        | none => current.endMs
      let newPrev : CaptionSegment :=
        { prev with
          words := newPrevWords
          text := joinWords newPrevWords
          endMs := newPrevEndMs }
      let newCurrent : CaptionSegment :=
        { current with
          words := newCurrentWords
          text := joinWords newCurrentWords
          startMs := newCurrentStartMs }
      (segments.set (index - 1) newPrev).set index newCurrent
  else segments

/-- `handleSaveEdit` (the spec's `editText`), translated from
src/unnamed/part_001 lines 208-238.  The source has no index guard: an
out-of-range index makes `segments[index]` undefined and the later field
access throw, so `setSegments` is never called and the stored sequence is
unchanged; that path is modeled as the identity.  `editBoxText` is the
component's `editText` state, the new text for the segment. -/
def handleSaveEdit (segments : List CaptionSegment) (index : Nat)
    (editBoxText : List Char) : List CaptionSegment :=
  if h : index < segments.length then
    let seg := segments[index]
    let newText := trimChars editBoxText
    if newText = [] then segments
    else
      let newWordsTexts := splitWS newText
      let wordCount := newWordsTexts.length
      let duration := seg.endMs - seg.startMs
      let wordDuration := duration / (wordCount : ℚ)
      let newWords : List WordSpan :=
        newWordsTexts.enum.map (fun p =>
          { text := p.2
            startMs := seg.startMs + (p.1 : ℚ) * wordDuration
            endMs := seg.startMs + ((p.1 : ℚ) + 1) * wordDuration })
      let newSegment : CaptionSegment :=
        { seg with text := newText, words := newWords }
      segments.set index newSegment
  else segments

/-- `Math.round`, as applied by `handleBurn` (CaptionEditor.tsx lines
925-944) to every timestamp before it crosses the wire.  Mathlib's `round`
is `⌊x + 1/2⌋`, which agrees with JS `Math.round` (half away from minus
infinity) on all rationals. -/
def roundWord (w : WordSpan) : WordSpan :=
  { w with startMs := (round w.startMs : ℤ), endMs := (round w.endMs : ℤ) }

/-- The per-segment rounding `handleBurn` applies when serializing the
store into the `saveCaptions`/`burn` wire envelopes. -/
def roundSegment (seg : CaptionSegment) : CaptionSegment :=
  { seg with
    startMs := (round seg.startMs : ℤ)
    endMs := (round seg.endMs : ℤ)
    words := seg.words.map roundWord }

/-- The segment payload `handleBurn` sends across the bridge. -/
def burnEnvelopeSegments (segments : List CaptionSegment) :
    List CaptionSegment :=
  segments.map roundSegment

/-- The `core:call` IPC payload as built by the renderer and consumed by
`registerRustIPC` (src/electron/lib/main/app.ts lines 166-183): the
renderer supplies `method`, `params` and `requestId` (`handleGenerate`
creates the identifier with `crypto.randomUUID()`, CaptionEditor.tsx line
996). -/
structure CoreCallPayload where
  method : String
  params : String
  requestId : String
deriving DecidableEq

/-- The forwarding done by the `core:call` handler in `registerRustIPC`:
`core.call(payload.method, payload.params, onProgress, payload.requestId)`.
The triple returned is what reaches the sidecar; in particular the third
component is the identifier that tags the call. -/
def coreCallForward (payload : CoreCallPayload) : String × String × String :=
  (payload.method, payload.params, payload.requestId)

/-- Outcome of dispatching a call against the pending-call table. -/
inductive DispatchOutcome where
  | accepted (pending : List String)
  | duplicateIdError
deriving DecidableEq

/-- Modelled from the spec: the Sidecar dispatcher's pending-call table
(src/electron/lib/main/sidecar.ts is imported by app.ts but absent from
src/).  Per spec §4.1 and §3, a `PendingCall` is created at dispatch time
and "reusing an identifier already present in the pending table is an
error (structural misuse)"; otherwise the entry is inserted. -/
def sidecarDispatch (pending : List String) (requestId : String) :
    DispatchOutcome :=
  if requestId ∈ pending then .duplicateIdError
  else .accepted (requestId :: pending)

/-- Segment-level ordering and non-overlap between two segments: the
earlier one starts no later and ends before the later one starts (spec §3:
"ordered by startMs ascending, segments mutually non-overlapping", read
with half-open intervals so that `endMs ≤ startMs` of the next means no
overlap). -/
def segLE (a b : CaptionSegment) : Prop :=
  a.startMs ≤ b.startMs ∧ a.endMs ≤ b.startMs

instance (a b : CaptionSegment) : Decidable (segLE a b) :=
  inferInstanceAs (Decidable (_ ∧ _))

/-- Word-level ordering and non-overlap between two words. -/
def wordLE (a b : WordSpan) : Prop :=
  a.startMs ≤ b.startMs ∧ a.endMs ≤ b.startMs

instance (a b : WordSpan) : Decidable (wordLE a b) :=
  inferInstanceAs (Decidable (_ ∧ _))

instance : IsTrans CaptionSegment segLE :=
  ⟨fun _ _ _ h1 h2 => ⟨le_trans h1.1 h2.1, le_trans h1.2 h2.1⟩⟩

instance : IsTrans WordSpan wordLE :=
  ⟨fun _ _ _ h1 h2 => ⟨le_trans h1.1 h2.1, le_trans h1.2 h2.1⟩⟩

/-- The segment sequence is ascending by `startMs` and mutually
non-overlapping. -/
def segsOrdered (segments : List CaptionSegment) : Prop :=
  segments.Pairwise segLE

instance (segments : List CaptionSegment) : Decidable (segsOrdered segments) :=
  inferInstanceAs (Decidable (List.Pairwise _ _))

/-- Validity of a segment sequence as claimed: segments ordered and
non-overlapping, and within every segment the words ordered and
non-overlapping. -/
def validSeq (segments : List CaptionSegment) : Prop :=
  segsOrdered segments ∧ ∀ seg ∈ segments, seg.words.Pairwise wordLE

instance (segments : List CaptionSegment) : Decidable (validSeq segments) :=
  inferInstanceAs (Decidable (_ ∧ _))

/-- Every word of the segment lies inside the segment's time bounds and is
itself a well-formed span (spec §3: word spans satisfy `startMs < endMs`
and a segment's bounds stay consistent with its boundary words). -/
def wordsInBounds (seg : CaptionSegment) : Prop :=
  ∀ w ∈ seg.words,
    seg.startMs ≤ w.startMs ∧ w.startMs ≤ w.endMs ∧ w.endMs ≤ seg.endMs

instance (seg : CaptionSegment) : Decidable (wordsInBounds seg) :=
  inferInstanceAs (Decidable (∀ w ∈ seg.words, _ ∧ _ ∧ _))

/-- The segment's `text` is the space-joined concatenation of its words'
text fields (the spec §3 invariant). -/
def textConsistent (seg : CaptionSegment) : Prop :=
  seg.text = joinWords seg.words

instance (seg : CaptionSegment) : Decidable (textConsistent seg) :=
  inferInstanceAs (Decidable (_ = _))

/-- The segment's bounds agree with its boundary words: `startMs` is the
first word's `startMs` and `endMs` is the last word's `endMs` (in
particular the segment has at least one word). -/
def boundsTight (seg : CaptionSegment) : Prop :=
  seg.words.head?.map WordSpan.startMs = some seg.startMs ∧
  seg.words.getLast?.map WordSpan.endMs = some seg.endMs

instance (seg : CaptionSegment) : Decidable (boundsTight seg) :=
  inferInstanceAs (Decidable (_ ∧ _))

/-- The rational is an integer number of milliseconds. -/
def intTimes (q : ℚ) : Prop := q.den = 1

instance (q : ℚ) : Decidable (intTimes q) :=
  inferInstanceAs (Decidable (_ = _))

/-- All timestamps of the segment (its own bounds and every word's bounds)
are integers. -/
def segInt (seg : CaptionSegment) : Prop :=
  intTimes seg.startMs ∧ intTimes seg.endMs ∧
    ∀ w ∈ seg.words, intTimes w.startMs ∧ intTimes w.endMs

instance (seg : CaptionSegment) : Decidable (segInt seg) :=
  inferInstanceAs (Decidable (_ ∧ _ ∧ _))

/-- All timestamps of the sequence are integers. -/
def allInt (segments : List CaptionSegment) : Prop :=
  ∀ seg ∈ segments, segInt seg

instance (segments : List CaptionSegment) : Decidable (allInt segments) :=
  inferInstanceAs (Decidable (∀ seg ∈ segments, _))

/-- The updated `segments[index]` produced by the active branch of
`moveLastWordToNext`. -/
def shiftedCurrent (a : CaptionSegment) : CaptionSegment :=
  { a with
    words := a.words.dropLast
    text := joinWords a.words.dropLast
    endMs := ((a.words.dropLast.getLast?).map WordSpan.endMs).getD a.startMs }

/-- The updated `segments[index+1]` produced by the active branch of
`moveLastWordToNext`. -/
def shiftedNext (w : WordSpan) (b : CaptionSegment) : CaptionSegment :=
  { b with
    words := w :: b.words
    text := joinWords (w :: b.words)
    startMs := w.startMs }

/-- The updated `segments[index-1]` produced by the active branch of
`moveFirstWordToPrev`. -/
def extendedPrev (p : CaptionSegment) (w : WordSpan) : CaptionSegment :=
  { p with
    words := p.words ++ [w]
    text := joinWords (p.words ++ [w])
    endMs := w.endMs }

/-- The updated `segments[index]` produced by the active branch of
`moveFirstWordToPrev`. -/
def shrunkCurrent (c : CaptionSegment) (rest : List WordSpan) : CaptionSegment :=
  { c with
    words := rest
    text := joinWords rest
    startMs := ((rest.head?).map WordSpan.startMs).getD c.endMs }

/-- The replacement segment built by the active branch of `handleSaveEdit`
for segment `seg` when the trimmed replacement text is `t`. -/
def editedSegment (seg : CaptionSegment) (t : List Char) : CaptionSegment :=
  { seg with
    text := t
    words := (splitWS t).enum.map (fun p =>
      { text := p.2
        startMs := seg.startMs +
          (p.1 : ℚ) * ((seg.endMs - seg.startMs) / ((splitWS t).length : ℚ))
        endMs := seg.startMs +
          ((p.1 : ℚ) + 1) * ((seg.endMs - seg.startMs) / ((splitWS t).length : ℚ)) }) }

/-- The spec §8 example input: segment A `{1000,4000}` with words
"Hello","world" and segment B `{4000,6000}` with word "there". -/
def exSegments : List CaptionSegment :=
  [{ startMs := 1000, endMs := 4000, text := "Hello world".toList,
     words := [{ startMs := 1000, endMs := 2000, text := "Hello".toList },
               { startMs := 2000, endMs := 4000, text := "world".toList }] },
   { startMs := 4000, endMs := 6000, text := "there".toList,
     words := [{ startMs := 4000, endMs := 6000, text := "there".toList }] }]

/-- The spec §8 expected output of `shiftWordToNext(exSegments, 0)`. -/
def exShifted : List CaptionSegment :=
  [{ startMs := 1000, endMs := 2000, text := "Hello".toList,
     words := [{ startMs := 1000, endMs := 2000, text := "Hello".toList }] },
   { startMs := 2000, endMs := 6000, text := "world there".toList,
     words := [{ startMs := 2000, endMs := 4000, text := "world".toList },
               { startMs := 4000, endMs := 6000, text := "there".toList }] }]

/-- The spec §8 `editText` example input: a segment spanning 0..3000. -/
def exEditSegments : List CaptionSegment :=
  [{ startMs := 0, endMs := 3000, text := "x".toList,
     words := [{ startMs := 0, endMs := 3000, text := "x".toList }] }]

/-- The spec §8 expected output of `editText(exEditSegments, 0, "a b c")`. -/
def exEdited : List CaptionSegment :=
  [{ startMs := 0, endMs := 3000, text := "a b c".toList,
     words := [{ startMs := 0, endMs := 1000, text := "a".toList },
               { startMs := 1000, endMs := 2000, text := "b".toList },
               { startMs := 2000, endMs := 3000, text := "c".toList }] }]

/-- A sequence that is valid in the sense of claim C1 (segments ordered and
non-overlapping, words within each segment ordered and non-overlapping) but
whose first segment's single word lies outside the segment's bounds. -/
def cexOutOfBounds : List CaptionSegment :=
  [{ startMs := 100, endMs := 200, text := "x".toList,
     words := [{ startMs := 0, endMs := 50, text := "x".toList }] },
   { startMs := 300, endMs := 400, text := [], words := [] }]

/-- A single-segment sequence spanning 0..1000 whose text invariant holds. -/
def cexUnitSegment : List CaptionSegment :=
  [{ startMs := 0, endMs := 1000, text := "x".toList,
     words := [{ startMs := 0, endMs := 1000, text := "x".toList }] }]

/-- A sequence with tight word bounds but a first segment whose `text`
field ("XX") is not the space-join of its words' texts ("a"). -/
def cexStaleText : List CaptionSegment :=
  [{ startMs := 0, endMs := 10, text := "XX".toList,
     words := [{ startMs := 0, endMs := 10, text := "a".toList }] },
   { startMs := 10, endMs := 20, text := "there".toList,
     words := [{ startMs := 10, endMs := 20, text := "there".toList }] }]

theorem moveLastWordToNext_oob (s : List CaptionSegment) (i : Nat)
    (h : s.length ≤ i + 1) : moveLastWordToNext s i = s := by
  unfold moveLastWordToNext
  rw [dif_neg (by omega)]

theorem moveLastWordToNext_noWords (s : List CaptionSegment) (i : Nat)
    (h : i + 1 < s.length) (hw : s[i].words = []) :
    moveLastWordToNext s i = s := by
  unfold moveLastWordToNext
  rw [dif_pos h]
  have hl : s[i].words.getLast? = none := by simp [hw]
  simp only [hl]

theorem moveLastWordToNext_active (s : List CaptionSegment) (i : Nat)
    (h : i + 1 < s.length) (w : WordSpan) (hw : s[i].words.getLast? = some w) :
    moveLastWordToNext s i =
      (s.set i (shiftedCurrent s[i])).set (i + 1) (shiftedNext w s[i + 1]) := by
  unfold moveLastWordToNext
  rw [dif_pos h]
  simp only [hw]
  cases hdl : s[i].words.dropLast.getLast? <;>
    simp [shiftedCurrent, shiftedNext, hdl]

theorem moveFirstWordToPrev_first (s : List CaptionSegment) :
    moveFirstWordToPrev s 0 = s := by
  unfold moveFirstWordToPrev
  rw [dif_neg (by omega)]

theorem moveFirstWordToPrev_oob (s : List CaptionSegment) (i : Nat)
    (h : s.length ≤ i) : moveFirstWordToPrev s i = s := by
  unfold moveFirstWordToPrev
  rw [dif_neg (by omega)]

theorem moveFirstWordToPrev_noWords (s : List CaptionSegment) (i : Nat)
    (h0 : 0 < i) (h : i < s.length) (hw : s[i].words = []) :
    moveFirstWordToPrev s i = s := by
  unfold moveFirstWordToPrev
  rw [dif_pos ⟨h0, h⟩]
  simp only [hw]

theorem moveFirstWordToPrev_active (s : List CaptionSegment) (i : Nat)
    (h0 : 0 < i) (h : i < s.length) (w : WordSpan) (rest : List WordSpan)
    (hw : s[i].words = w :: rest) :
    moveFirstWordToPrev s i =
      (s.set (i - 1) (extendedPrev s[i - 1] w)).set i
        (shrunkCurrent s[i] rest) := by
  unfold moveFirstWordToPrev
  rw [dif_pos ⟨h0, h⟩]
  simp only [hw]
  cases hh : rest.head? <;>
    simp [extendedPrev, shrunkCurrent, hh]

theorem handleSaveEdit_oob (s : List CaptionSegment) (i : Nat) (t : List Char)
    (h : s.length ≤ i) : handleSaveEdit s i t = s := by
  unfold handleSaveEdit
  rw [dif_neg (by omega)]

theorem handleSaveEdit_empty (s : List CaptionSegment) (i : Nat) (t : List Char)
    (ht : trimChars t = []) : handleSaveEdit s i t = s := by
  unfold handleSaveEdit
  by_cases h : i < s.length
  · rw [dif_pos h, if_pos ht]
  · rw [dif_neg h]

theorem handleSaveEdit_active (s : List CaptionSegment) (i : Nat) (t : List Char)
    (h : i < s.length) (ht : trimChars t ≠ []) :
    handleSaveEdit s i t = s.set i (editedSegment s[i] (trimChars t)) := by
  unfold handleSaveEdit
  rw [dif_pos h, if_neg ht]
  rfl

theorem set_decomp {α : Type} (s : List α) (i : Nat) (a : α)
    (h : i < s.length) : s.set i a = s.take i ++ a :: s.drop (i + 1) := by
  rw [List.set_eq_take_append_cons_drop, if_pos h]

theorem set_set_decomp {α : Type} (s : List α) (i : Nat) (a b : α)
    (h : i + 1 < s.length) :
    (s.set i a).set (i + 1) b = s.take i ++ a :: b :: s.drop (i + 2) := by
  induction s generalizing i with
  | nil => simp at h
  | cons x xs ih =>
    cases i with
    | zero =>
      cases xs with
      | nil => simp at h
      | cons y ys => simp [List.set]
    | succ n =>
      simp only [List.length_cons] at h
      simp [List.set, ih n (by omega)]

theorem self_decomp {α : Type} (s : List α) (i : Nat) (h : i < s.length) :
    s = s.take i ++ s[i] :: s.drop (i + 1) := by
  conv_lhs => rw [← List.take_append_drop i s]
  rw [List.drop_eq_getElem_cons h]

theorem self_decomp2 {α : Type} (s : List α) (i : Nat) (h : i + 1 < s.length) :
    s = s.take i ++ s[i] :: s[i + 1] :: s.drop (i + 2) := by
  conv_lhs => rw [self_decomp s i (by omega)]
  rw [List.drop_eq_getElem_cons h]

theorem chain'_replace1 {α : Type} {R : α → α → Prop} {l₁ l₂ : List α}
    {a a2 : α} (hc : List.Chain' R (l₁ ++ a :: l₂))
    (ha : ∀ x, R x a → R x a2) (hb : ∀ y, R a y → R a2 y) :
    List.Chain' R (l₁ ++ a2 :: l₂) := by
  rw [List.chain'_append] at hc ⊢
  obtain ⟨h1, h2, h3⟩ := hc
  rw [List.chain'_cons'] at h2 ⊢
  exact ⟨h1, ⟨fun y hy => hb y (h2.1 y hy), h2.2⟩,
    fun x hx y hy => by
      rw [List.head?_cons, Option.mem_some_iff] at hy
      exact hy ▸ ha x (h3 x hx a (by simp))⟩

theorem chain'_replace2 {α : Type} {R : α → α → Prop} {l₁ l₂ : List α}
    {a b a2 b2 : α} (hc : List.Chain' R (l₁ ++ a :: b :: l₂))
    (ha : ∀ x, R x a → R x a2) (hab : R a2 b2) (hb : ∀ y, R b y → R b2 y) :
    List.Chain' R (l₁ ++ a2 :: b2 :: l₂) := by
  rw [List.chain'_append] at hc ⊢
  obtain ⟨h1, h2, h3⟩ := hc
  rw [List.chain'_cons] at h2
  rw [List.chain'_cons'] at h2
  refine ⟨h1, ?_, fun x hx y hy => ?_⟩
  · rw [List.chain'_cons, List.chain'_cons']
    exact ⟨hab, fun y hy => hb y (h2.2.1 y hy), h2.2.2⟩
  · rw [List.head?_cons, Option.mem_some_iff] at hy
    exact hy ▸ ha x (h3 x hx a (by simp))

theorem getLast?_decomp {α : Type} {l : List α} {w : α}
    (hw : l.getLast? = some w) : l = l.dropLast ++ [w] := by
  have hne : l ≠ [] := by intro hh; rw [hh] at hw; simp at hw
  have h2 := List.dropLast_concat_getLast hne
  rw [List.getLast?_eq_getLast l hne, Option.some_inj] at hw
  rw [hw] at h2
  exact h2.symm

theorem chain'_dropLast_getLast {α : Type} {R : α → α → Prop} {l : List α}
    {u w : α} (hc : List.Chain' R l) (hw : l.getLast? = some w)
    (hu : l.dropLast.getLast? = some u) : R u w := by
  rw [getLast?_decomp hw] at hc
  exact (List.chain'_append.mp hc).2.2 u (by simp [hu]) w (by simp)

theorem chain'_cons_head {α : Type} {R : α → α → Prop} {w v : α}
    {rest : List α} (hc : List.Chain' R (w :: rest))
    (hv : rest.head? = some v) : R w v := by
  cases rest with
  | nil => simp at hv
  | cons x xs =>
    rw [List.head?_cons, Option.some_inj] at hv
    exact hv ▸ (List.chain'_cons.mp hc).1

theorem segsOrdered_moveLastWordToNext (s : List CaptionSegment)
    (hv : validSeq s) (hbnd : ∀ seg ∈ s, wordsInBounds seg) (i : Nat) :
    segsOrdered (moveLastWordToNext s i) := by
  by_cases h : i + 1 < s.length
  · cases hw : s[i].words.getLast? with
    | none =>
      rw [moveLastWordToNext_noWords s i h (by simpa using hw)]
      exact hv.1
    | some w =>
      rw [moveLastWordToNext_active s i h w hw, set_set_decomp s i _ _ h]
      have hmemA : s[i] ∈ s := List.getElem_mem (by omega)
      have hmemB : s[i + 1] ∈ s := List.getElem_mem h
      have hwmem : w ∈ s[i].words := List.mem_of_getLast?_eq_some hw
      have hA := hbnd _ hmemA
      have hchain : List.Chain' segLE s := List.chain'_iff_pairwise.mpr hv.1
      rw [self_decomp2 s i h] at hchain
      have hAB : segLE s[i] s[i + 1] :=
        (List.chain'_cons.mp (List.chain'_append.mp hchain).2.1).1
      unfold segsOrdered
      rw [← List.chain'_iff_pairwise]
      apply chain'_replace2 hchain
      · intro x hx
        exact hx
      · constructor
        · exact (hA w hwmem).1
        · show ((s[i].words.dropLast.getLast?).map WordSpan.endMs).getD
            s[i].startMs ≤ w.startMs
          cases hdl : s[i].words.dropLast.getLast? with
          | none => simpa using (hA w hwmem).1
          | some u =>
            have hwords : List.Chain' wordLE s[i].words :=
              List.chain'_iff_pairwise.mpr (hv.2 _ hmemA)
            simpa using (chain'_dropLast_getLast hwords hw hdl).2
      · intro y hy
        refine ⟨?_, hy.2⟩
        calc w.startMs ≤ w.endMs := (hA w hwmem).2.1
          _ ≤ s[i].endMs := (hA w hwmem).2.2
          _ ≤ s[i + 1].startMs := hAB.2
          _ ≤ y.startMs := hy.1
  · rw [moveLastWordToNext_oob s i (by omega)]
    exact hv.1

theorem segsOrdered_moveFirstWordToPrev (s : List CaptionSegment)
    (hv : validSeq s) (hbnd : ∀ seg ∈ s, wordsInBounds seg) (i : Nat) :
    segsOrdered (moveFirstWordToPrev s i) := by
  cases i with
  | zero =>
    rw [moveFirstWordToPrev_first]
    exact hv.1
  | succ j =>
    by_cases h : j + 1 < s.length
    · cases hw : s[j + 1].words with
      | nil =>
        rw [moveFirstWordToPrev_noWords s (j + 1) (by omega) h hw]
        exact hv.1
      | cons w rest =>
        rw [moveFirstWordToPrev_active s (j + 1) (by omega) h w rest hw]
        simp only [Nat.add_sub_cancel]
        rw [set_set_decomp s j _ _ h]
        have hmemC : s[j + 1] ∈ s := List.getElem_mem h
        have hwmem : w ∈ s[j + 1].words := by rw [hw]; exact List.mem_cons_self _ _
        have hC := hbnd _ hmemC
        have hchain : List.Chain' segLE s := List.chain'_iff_pairwise.mpr hv.1
        rw [self_decomp2 s j h] at hchain
        have hPC : segLE s[j] s[j + 1] :=
          (List.chain'_cons.mp (List.chain'_append.mp hchain).2.1).1
        unfold segsOrdered
        rw [← List.chain'_iff_pairwise]
        apply chain'_replace2 hchain
        · intro x hx
          exact hx
        · constructor
          · show s[j].startMs ≤
              ((rest.head?).map WordSpan.startMs).getD s[j + 1].endMs
            cases hh : rest.head? with
            | none =>
              have h1 := (hC w hwmem).1
              have h2 := (hC w hwmem).2.1
              have h3 := (hC w hwmem).2.2
              have h4 := hPC.1
              simp only [Option.map_none', Option.getD_none]
              linarith
            | some v =>
              have hvmem : v ∈ s[j + 1].words := by
                rw [hw]
                exact List.mem_cons_of_mem _ (List.mem_of_mem_head? hh)
              have h1 := (hC v hvmem).1
              have h4 := hPC.1
              simp only [Option.map_some', Option.getD_some]
              linarith
          · show w.endMs ≤
              ((rest.head?).map WordSpan.startMs).getD s[j + 1].endMs
            cases hh : rest.head? with
            | none =>
              simpa using (hC w hwmem).2.2
            | some v =>
              have hwords : List.Chain' wordLE s[j + 1].words :=
                List.chain'_iff_pairwise.mpr (hv.2 _ hmemC)
              rw [hw] at hwords
              simpa using (chain'_cons_head hwords hh).2
        · intro y hy
          refine ⟨?_, hy.2⟩
          show ((rest.head?).map WordSpan.startMs).getD s[j + 1].endMs ≤
            y.startMs
          cases hh : rest.head? with
          | none => simpa using hy.2
          | some v =>
            have hvmem : v ∈ s[j + 1].words := by
              rw [hw]
              exact List.mem_cons_of_mem _ (List.mem_of_mem_head? hh)
            have h1 := (hC v hvmem).2.1
            have h2 := (hC v hvmem).2.2
            have h3 := hy.2
            simp only [Option.map_some', Option.getD_some]
            linarith
    · rw [moveFirstWordToPrev_oob s (j + 1) (by omega)]
      exact hv.1

theorem segsOrdered_handleSaveEdit (s : List CaptionSegment)
    (hv : segsOrdered s) (i : Nat) (t : List Char) :
    segsOrdered (handleSaveEdit s i t) := by
  by_cases h : i < s.length
  · by_cases ht : trimChars t = []
    · rw [handleSaveEdit_empty _ _ _ ht]
      exact hv
    · rw [handleSaveEdit_active s i t h ht, set_decomp _ _ _ h]
      have hchain : List.Chain' segLE s := List.chain'_iff_pairwise.mpr hv
      rw [self_decomp s i h] at hchain
      unfold segsOrdered
      rw [← List.chain'_iff_pairwise]
      apply chain'_replace1 hchain
      · intro x hx
        exact hx
      · intro y hy
        exact hy
  · rw [handleSaveEdit_oob _ _ _ (by omega)]
    exact hv

theorem extendedPrev_shiftedCurrent (A : CaptionSegment) (w : WordSpan)
    (hlast : A.words.getLast? = some w) (hbA : boundsTight A)
    (htA : textConsistent A) : extendedPrev (shiftedCurrent A) w = A := by
  have hend : w.endMs = A.endMs := by
    have h2 := hbA.2
    rw [hlast] at h2
    simpa using h2
  have hwords : A.words.dropLast ++ [w] = A.words := (getLast?_decomp hlast).symm
  show ({ startMs := A.startMs
          endMs := w.endMs
          text := joinWords (A.words.dropLast ++ [w])
          words := A.words.dropLast ++ [w] } : CaptionSegment) = A
  rw [hwords, hend, ← htA]

theorem shrunkCurrent_shiftedNext (B : CaptionSegment) (w : WordSpan)
    (hbB : boundsTight B) (htB : textConsistent B) :
    shrunkCurrent (shiftedNext w B) B.words = B := by
  have h1 := hbB.1
  show ({ startMs := ((B.words.head?).map WordSpan.startMs).getD
            (shiftedNext w B).endMs
          endMs := B.endMs
          text := joinWords B.words
          words := B.words } : CaptionSegment) = B
  rw [h1, ← htB]
  rfl

/-- C9 (amended): for sequences whose segment bounds agree with their
boundary words and whose `text` fields satisfy the space-join invariant,
`shiftWordToNext` at `i` followed by `shiftWordToPrev` at `i+1` is the
identity, provided `i` is in range, not last, and `segments[i]` has at
least one word. -/
theorem shift_roundtrip_identity (s : List CaptionSegment)
    (hb : ∀ seg ∈ s, boundsTight seg) (ht : ∀ seg ∈ s, textConsistent seg)
    (i : Nat) (h : i + 1 < s.length) (hw : s[i].words ≠ []) :
    moveFirstWordToPrev (moveLastWordToNext s i) (i + 1) = s := by
  obtain ⟨w, hlast⟩ : ∃ u, s[i].words.getLast? = some u := by
    cases hgl : s[i].words.getLast? with
    | none => exact absurd (List.getLast?_eq_none_iff.mp hgl) hw
    | some u => exact ⟨u, rfl⟩
  have hmemA : s[i] ∈ s := List.getElem_mem (by omega)
  have hmemB : s[i + 1] ∈ s := List.getElem_mem h
  rw [moveLastWordToNext_active s i h w hlast]
  have hi1 : i + 1 < ((s.set i (shiftedCurrent s[i])).set (i + 1)
      (shiftedNext w s[i + 1])).length := by
    simpa using h
  have hq1 : ((s.set i (shiftedCurrent s[i])).set (i + 1)
      (shiftedNext w s[i + 1]))[i + 1]? = some (shiftedNext w s[i + 1]) :=
    List.getElem?_set_self (by simpa using h)
  have he1 : ((s.set i (shiftedCurrent s[i])).set (i + 1)
      (shiftedNext w s[i + 1]))[i + 1] = shiftedNext w s[i + 1] := by
    have h0 := hq1
    rwa [List.getElem?_eq_getElem hi1, Option.some_inj] at h0
  have hw1 : ((s.set i (shiftedCurrent s[i])).set (i + 1)
      (shiftedNext w s[i + 1]))[i + 1].words = w :: s[i + 1].words := by
    rw [he1]
    rfl
  rw [moveFirstWordToPrev_active _ (i + 1) (by omega) hi1 w
    (s[i + 1].words) hw1]
  simp only [Nat.add_sub_cancel]
  have hi0 : i < ((s.set i (shiftedCurrent s[i])).set (i + 1)
      (shiftedNext w s[i + 1])).length := by
    simp
    omega
  have hq0 : ((s.set i (shiftedCurrent s[i])).set (i + 1)
      (shiftedNext w s[i + 1]))[i]? = some (shiftedCurrent s[i]) := by
    rw [List.getElem?_set_ne (by omega), List.getElem?_set_self (by omega)]
  have he0 : ((s.set i (shiftedCurrent s[i])).set (i + 1)
      (shiftedNext w s[i + 1]))[i] = shiftedCurrent s[i] := by
    have h0 := hq0
    rwa [List.getElem?_eq_getElem hi0, Option.some_inj] at h0
  rw [he0, he1]
  rw [extendedPrev_shiftedCurrent s[i] w hlast (hb _ hmemA) (ht _ hmemA)]
  rw [shrunkCurrent_shiftedNext s[i + 1] w (hb _ hmemB) (ht _ hmemB)]
  apply List.ext_getElem?
  intro n
  by_cases hni : n = i
  · subst hni
    rw [List.getElem?_set_ne (by omega),
      List.getElem?_set_self (show n < ((s.set n (shiftedCurrent s[n])).set
        (n + 1) (shiftedNext w s[n + 1])).length by simp; omega),
      List.getElem?_eq_getElem (show n < s.length by omega)]
  · by_cases hni1 : n = i + 1
    · subst hni1
      rw [List.getElem?_set_self (by simpa using h),
        List.getElem?_eq_getElem h]
    · rw [List.getElem?_set_ne (fun hh => hni1 hh.symm),
        List.getElem?_set_ne (fun hh => hni hh.symm),
        List.getElem?_set_ne (fun hh => hni1 hh.symm),
        List.getElem?_set_ne (fun hh => hni hh.symm)]

/-- C1 (amended): for sequences that are valid (segments ordered ascending
by `startMs` and mutually non-overlapping, words within each segment
ordered and non-overlapping) and in which every word additionally lies
within its segment's bounds, each of the three mutators preserves
ascending `startMs` ordering and mutual non-overlap of segments. -/
theorem mutators_preserve_segment_ordering (s : List CaptionSegment)
    (hv : validSeq s) (hbnd : ∀ seg ∈ s, wordsInBounds seg) :
    (∀ i : Nat, segsOrdered (moveLastWordToNext s i)) ∧
    (∀ i : Nat, segsOrdered (moveFirstWordToPrev s i)) ∧
    (∀ (i : Nat) (t : List Char), segsOrdered (handleSaveEdit s i t)) :=
  ⟨segsOrdered_moveLastWordToNext s hv hbnd,
   segsOrdered_moveFirstWordToPrev s hv hbnd,
   fun i t => segsOrdered_handleSaveEdit s hv.1 i t⟩

/-- C1 as stated is false: `cexOutOfBounds` is valid in exactly the sense
the claim assumes (ordering and non-overlap at both levels), yet
`shiftWordToNext` at index 0 returns a sequence whose segments are no
longer ordered-and-non-overlapping, because the moved word's timestamps
lie outside its segment's bounds. -/
theorem ordering_not_preserved_without_word_bounds :
    validSeq cexOutOfBounds ∧
    ¬ segsOrdered (moveLastWordToNext cexOutOfBounds 0) :=
  ⟨by decide, by decide⟩

/-- Witness instantiating `mutators_preserve_segment_ordering` on the spec
§8 example sequence. -/
theorem mutators_preserve_segment_ordering_witness :
    validSeq exSegments ∧ (∀ seg ∈ exSegments, wordsInBounds seg) ∧
    segsOrdered (moveLastWordToNext exSegments 0) :=
  ⟨by decide, by decide,
    (mutators_preserve_segment_ordering exSegments (by decide)
      (by decide)).1 0⟩

/-- C2: `shiftWordToNext` moves the trailing word of `segments[index]` to
the head of `segments[index+1]`; the updated `segments[index]` ends at its
new trailing word's `endMs` (or at its own original `startMs` if it became
word-empty), the updated `segments[index+1]` starts at the moved word's
`startMs`, and both `text` fields are regenerated from the words; on the
spec §8 example the output is exactly A1, B1. -/
theorem shiftWordToNext_moves_trailing_word :
    (∀ (s : List CaptionSegment) (i : Nat) (h : i + 1 < s.length)
      (w : WordSpan), s[i].words.getLast? = some w →
        (moveLastWordToNext s i)[i]? =
          some { startMs := s[i].startMs
                 endMs := ((s[i].words.dropLast.getLast?).map
                   WordSpan.endMs).getD s[i].startMs
                 text := joinWords s[i].words.dropLast
                 words := s[i].words.dropLast } ∧
        (moveLastWordToNext s i)[i + 1]? =
          some { startMs := w.startMs
                 endMs := s[i + 1].endMs
                 text := joinWords (w :: s[i + 1].words)
                 words := w :: s[i + 1].words }) ∧
    moveLastWordToNext exSegments 0 = exShifted := by
  constructor
  · intro s i h w hw
    rw [moveLastWordToNext_active s i h w hw]
    constructor
    · rw [List.getElem?_set_ne (by omega),
        List.getElem?_set_self (show i < s.length by omega)]
      rfl
    · rw [List.getElem?_set_self (by simpa using h)]
      rfl
  · decide

/-- Witness instantiating `shiftWordToNext_moves_trailing_word` on the
spec §8 example. -/
theorem shiftWordToNext_moves_trailing_word_witness :
    0 + 1 < exSegments.length ∧
    exSegments[0].words.getLast? =
      some { startMs := 2000, endMs := 4000, text := "world".toList } ∧
    (moveLastWordToNext exSegments 0)[0]? =
      some { startMs := 1000, endMs := 2000, text := "Hello".toList,
             words := [{ startMs := 1000, endMs := 2000,
                         text := "Hello".toList }] } ∧
    (moveLastWordToNext exSegments 0)[0 + 1]? =
      some { startMs := 2000, endMs := 6000, text := "world there".toList,
             words := [{ startMs := 2000, endMs := 4000,
                         text := "world".toList },
                       { startMs := 4000, endMs := 6000,
                         text := "there".toList }] } := by
  have h0 := shiftWordToNext_moves_trailing_word.1 exSegments 0 (by decide)
    { startMs := 2000, endMs := 4000, text := "world".toList } (by decide)
  exact ⟨by decide, by decide, by rw [h0.1]; decide, by rw [h0.2]; decide⟩

/-- C5: when `segments[index]` has exactly one word and `index` is in
range and not last, `shiftWordToNext` keeps the emptied segment (the
sequence length is unchanged) with its `endMs` set to the segment's
original `startMs`, rather than removing it. -/
theorem shiftWordToNext_keeps_emptied_segment (s : List CaptionSegment)
    (i : Nat) (h : i + 1 < s.length) (w0 : WordSpan)
    (hw : s[i].words = [w0]) :
    (moveLastWordToNext s i).length = s.length ∧
    (moveLastWordToNext s i)[i]? =
      some { startMs := s[i].startMs, endMs := s[i].startMs, text := [],
             words := [] } := by
  have hlast : s[i].words.getLast? = some w0 := by rw [hw]; rfl
  rw [moveLastWordToNext_active s i h w0 hlast]
  refine ⟨by simp, ?_⟩
  rw [List.getElem?_set_ne (by omega),
    List.getElem?_set_self (show i < s.length by omega)]
  simp only [shiftedCurrent, hw, joinWords]
  rfl

/-- Witness instantiating `shiftWordToNext_keeps_emptied_segment` on a
two-segment sequence whose first segment has a single word. -/
theorem shiftWordToNext_keeps_emptied_segment_witness :
    0 + 1 < cexStaleText.length ∧
    cexStaleText[0].words =
      [{ startMs := 0, endMs := 10, text := "a".toList }] ∧
    (moveLastWordToNext cexStaleText 0).length = cexStaleText.length ∧
    (moveLastWordToNext cexStaleText 0)[0]? =
      some { startMs := 0, endMs := 0, text := [], words := [] } := by
  have h0 := shiftWordToNext_keeps_emptied_segment cexStaleText 0 (by decide)
    { startMs := 0, endMs := 10, text := "a".toList } (by decide)
  exact ⟨by decide, by decide, h0.1, by rw [h0.2]; decide⟩

/-- C6: `shiftWordToPrev` is a no-op on the first segment, out of range
indices, and word-empty segments; otherwise it moves the leading word of
`segments[index]` to the tail of `segments[index-1]`, the updated
`segments[index-1]` ends at the moved word's `endMs`, the updated
`segments[index]` starts at its new leading word's `startMs` (or at its
own original `endMs` if it became word-empty), and both `text` fields are
regenerated from the words. -/
theorem shiftWordToPrev_moves_leading_word :
    (∀ s : List CaptionSegment, moveFirstWordToPrev s 0 = s) ∧
    (∀ (s : List CaptionSegment) (i : Nat), s.length ≤ i →
      moveFirstWordToPrev s i = s) ∧
    (∀ (s : List CaptionSegment) (i : Nat) (h : i < s.length), 0 < i →
      s[i].words = [] → moveFirstWordToPrev s i = s) ∧
    (∀ (s : List CaptionSegment) (i : Nat) (h0 : 0 < i)
      (h : i < s.length) (w : WordSpan) (rest : List WordSpan),
      s[i].words = w :: rest →
        (moveFirstWordToPrev s i)[i - 1]? =
          some { startMs := s[i - 1].startMs
                 endMs := w.endMs
                 text := joinWords (s[i - 1].words ++ [w])
                 words := s[i - 1].words ++ [w] } ∧
        (moveFirstWordToPrev s i)[i]? =
          some { startMs := ((rest.head?).map WordSpan.startMs).getD
                   s[i].endMs
                 endMs := s[i].endMs
                 text := joinWords rest
                 words := rest }) := by
  refine ⟨moveFirstWordToPrev_first, moveFirstWordToPrev_oob, ?_, ?_⟩
  · intro s i h h0 hw
    exact moveFirstWordToPrev_noWords s i h0 h hw
  · intro s i h0 h w rest hw
    rw [moveFirstWordToPrev_active s i h0 h w rest hw]
    constructor
    · rw [List.getElem?_set_ne (by omega),
        List.getElem?_set_self (show i - 1 < s.length by omega)]
      rfl
    · rw [List.getElem?_set_self (by simpa using h)]
      rfl

/-- Witness instantiating `shiftWordToPrev_moves_leading_word` on the
spec §8 example at index 1. -/
theorem shiftWordToPrev_moves_leading_word_witness :
    0 < 1 ∧ 1 < exSegments.length ∧
    exSegments[1].words =
      { startMs := 4000, endMs := 6000, text := "there".toList } ::
        ([] : List WordSpan) ∧
    (moveFirstWordToPrev exSegments 1)[1 - 1]? =
      some { startMs := 1000, endMs := 6000,
             text := "Hello world there".toList,
             words := [{ startMs := 1000, endMs := 2000,
                         text := "Hello".toList },
                       { startMs := 2000, endMs := 4000,
                         text := "world".toList },
                       { startMs := 4000, endMs := 6000,
                         text := "there".toList }] } ∧
    (moveFirstWordToPrev exSegments 1)[1]? =
      some { startMs := 6000, endMs := 6000, text := [], words := [] } := by
  have h0 := shiftWordToPrev_moves_leading_word.2.2.2 exSegments 1
    (by decide) (by decide)
    { startMs := 4000, endMs := 6000, text := "there".toList } [] (by decide)
  exact ⟨by decide, by decide, by decide, by rw [h0.1]; decide,
    by rw [h0.2]; decide⟩

/-- C10: `shiftWordToNext` at `i` changes at most positions `i` and `i+1`,
`shiftWordToPrev` at `i` changes at most positions `i-1` and `i`, and
`editText` at `i` changes at most position `i`, for every sequence and
every argument, including the no-op cases. -/
theorem mutators_frame_effect :
    (∀ (s : List CaptionSegment) (i j : Nat), j ≠ i → j ≠ i + 1 →
      (moveLastWordToNext s i)[j]? = s[j]?) ∧
    (∀ (s : List CaptionSegment) (i j : Nat), j ≠ i - 1 → j ≠ i →
      (moveFirstWordToPrev s i)[j]? = s[j]?) ∧
    (∀ (s : List CaptionSegment) (i : Nat) (t : List Char) (j : Nat),
      j ≠ i → (handleSaveEdit s i t)[j]? = s[j]?) := by
  refine ⟨?_, ?_, ?_⟩
  · intro s i j hj1 hj2
    by_cases h : i + 1 < s.length
    · cases hw : s[i].words.getLast? with
      | none => rw [moveLastWordToNext_noWords s i h (by simpa using hw)]
      | some w =>
        rw [moveLastWordToNext_active s i h w hw,
          List.getElem?_set_ne (fun hh => hj2 hh.symm),
          List.getElem?_set_ne (fun hh => hj1 hh.symm)]
    · rw [moveLastWordToNext_oob s i (by omega)]
  · intro s i j hj1 hj2
    cases i with
    | zero => rw [moveFirstWordToPrev_first]
    | succ k =>
      by_cases h : k + 1 < s.length
      · cases hw : s[k + 1].words with
        | nil =>
          rw [moveFirstWordToPrev_noWords s (k + 1) (by omega) h hw]
        | cons w rest =>
          rw [moveFirstWordToPrev_active s (k + 1) (by omega) h w rest hw,
            List.getElem?_set_ne (fun hh => hj2 hh.symm),
            List.getElem?_set_ne (fun hh => hj1 hh.symm)]
      · rw [moveFirstWordToPrev_oob s (k + 1) (by omega)]
  · intro s i t j hj
    by_cases h : i < s.length
    · by_cases ht : trimChars t = []
      · rw [handleSaveEdit_empty _ _ _ ht]
      · rw [handleSaveEdit_active s i t h ht,
          List.getElem?_set_ne (fun hh => hj hh.symm)]
    · rw [handleSaveEdit_oob _ _ _ (by omega)]

/-- Witness instantiating `mutators_frame_effect` on the spec §8 example:
position 2 is untouched by a shift at 0. -/
theorem mutators_frame_effect_witness :
    (2 ≠ 0 ∧ 2 ≠ 0 + 1) ∧
    (moveLastWordToNext exSegments 0)[2]? = exSegments[2]? :=
  ⟨⟨by decide, by decide⟩,
    mutators_frame_effect.1 exSegments 0 2 (by decide) (by decide)⟩

/-- Counterexample for C9 as stated: `cexStaleText` satisfies the claim's
hypothesis (each segment's bounds equal its boundary words' bounds) and
the operation's guards at index 0, yet the round trip does not restore the
sequence, because the shifts regenerate the stale `text` field. -/
theorem roundtrip_fails_on_stale_text :
    (∀ seg ∈ cexStaleText, boundsTight seg) ∧
    0 + 1 < cexStaleText.length ∧
    cexStaleText[0].words ≠ [] ∧
    moveFirstWordToPrev (moveLastWordToNext cexStaleText 0) (0 + 1) ≠
      cexStaleText :=
  ⟨by decide, by decide, by decide, by decide⟩

/-- Witness instantiating `shift_roundtrip_identity` on the spec §8
example. -/
theorem shift_roundtrip_identity_witness :
    (∀ seg ∈ exSegments, boundsTight seg) ∧
    (∀ seg ∈ exSegments, textConsistent seg) ∧
    0 + 1 < exSegments.length ∧ exSegments[0].words ≠ [] ∧
    moveFirstWordToPrev (moveLastWordToNext exSegments 0) (0 + 1) =
      exSegments :=
  ⟨by decide, by decide, by decide, by decide,
    shift_roundtrip_identity exSegments (by decide) (by decide) 0
      (by decide) (by decide)⟩

theorem dropWhile_dropWhile {α : Type} (p : α → Bool) (l : List α) :
    (l.dropWhile p).dropWhile p = l.dropWhile p := by
  induction l with
  | nil => rfl
  | cons c cs ih =>
    by_cases h : p c
    · simp [List.dropWhile_cons, h, ih]
    · simp [List.dropWhile_cons, h]

theorem splitWS_cons_ws (c : Char) (cs : List Char) (h : isWS c) :
    splitWS (c :: cs) = splitWS cs := by
  simp [splitWS, splitOnWS, h]

theorem splitWS_cons_not_ws (c : Char) (cs : List Char) (h : ¬ isWS c) :
    ∃ t ts, splitWS (c :: cs) = (c :: t) :: ts := by
  simp only [splitWS, splitOnWS, if_neg h]
  cases hsp : splitOnWS cs with
  | nil => exact ⟨[], [], by simp⟩
  | cons t ts => exact ⟨t, ts.filter (fun u => u ≠ []), by simp⟩

theorem splitWS_eq_nil_iff (cs : List Char) :
    splitWS cs = [] ↔ ∀ c ∈ cs, isWS c := by
  induction cs with
  | nil => simp [splitWS, splitOnWS]
  | cons c cs ih =>
    by_cases h : isWS c
    · rw [splitWS_cons_ws c cs h, ih]
      simp [h]
    · obtain ⟨t, ts, hts⟩ := splitWS_cons_not_ws c cs h
      rw [hts]
      simp [h]

theorem trimChars_eq_nil_of_forall_ws (cs : List Char)
    (hall : ∀ c ∈ trimChars cs, isWS c) : trimChars cs = [] := by
  have hv : ∀ c ∈ ((cs.dropWhile isWS).reverse.dropWhile isWS), isWS c := by
    intro x hx
    exact hall x (by simpa [trimChars] using hx)
  have h1 : (((cs.dropWhile isWS).reverse.dropWhile isWS).dropWhile isWS)
      = [] := List.dropWhile_eq_nil_iff.mpr hv
  rw [dropWhile_dropWhile] at h1
  simp [trimChars, h1]

theorem splitWS_trim_eq_nil_iff (t : List Char) :
    splitWS (trimChars t) = [] ↔ trimChars t = [] := by
  constructor
  · intro h
    exact trimChars_eq_nil_of_forall_ws t ((splitWS_eq_nil_iff _).mp h)
  · intro h
    rw [h]
    rfl

/-- C3: `editText` splits the new text into whitespace-separated tokens;
with zero tokens it is a rejecting no-op; otherwise it replaces the
segment's words by exactly `N` spans, word `j` covering
`[start + j*duration/N, start + (j+1)*duration/N)` with
`duration = endMs - startMs`, carrying token `j` as its text; on the spec
§8 example, editing a 0..3000 segment to "a b c" yields exactly the words
(0,1000,"a"), (1000,2000,"b"), (2000,3000,"c"). -/
theorem editText_retimes_words :
    (∀ (s : List CaptionSegment) (i : Nat) (t : List Char),
      splitWS (trimChars t) = [] → handleSaveEdit s i t = s) ∧
    (∀ (s : List CaptionSegment) (i : Nat) (h : i < s.length)
      (t : List Char), splitWS (trimChars t) ≠ [] →
      (handleSaveEdit s i t)[i]? =
        some (editedSegment s[i] (trimChars t)) ∧
      (editedSegment s[i] (trimChars t)).startMs = s[i].startMs ∧
      (editedSegment s[i] (trimChars t)).endMs = s[i].endMs ∧
      (editedSegment s[i] (trimChars t)).text = trimChars t ∧
      (editedSegment s[i] (trimChars t)).words.length =
        (splitWS (trimChars t)).length ∧
      (∀ (j : Nat) (hj : j < (splitWS (trimChars t)).length),
        (editedSegment s[i] (trimChars t)).words[j]? = some
          { startMs := s[i].startMs + (j : ℚ) * (s[i].endMs - s[i].startMs) /
              ((splitWS (trimChars t)).length : ℚ)
            endMs := s[i].startMs +
              ((j : ℚ) + 1) * (s[i].endMs - s[i].startMs) /
              ((splitWS (trimChars t)).length : ℚ)
            text := (splitWS (trimChars t))[j] })) ∧
    handleSaveEdit exEditSegments 0 "a b c".toList = exEdited := by
  refine ⟨?_, ?_, by decide⟩
  · intro s i t h
    exact handleSaveEdit_empty s i t ((splitWS_trim_eq_nil_iff t).mp h)
  · intro s i h t htok
    have ht : trimChars t ≠ [] := by
      intro hh
      exact htok (by rw [hh]; rfl)
    rw [handleSaveEdit_active s i t h ht]
    refine ⟨by rw [List.getElem?_set_self h], rfl, rfl, rfl, by
      simp [editedSegment], ?_⟩
    intro j hj
    simp only [editedSegment]
    rw [List.getElem?_map, List.getElem?_enum,
      List.getElem?_eq_getElem hj]
    simp only [Option.map_some']
    congr 1
    refine WordSpan.mk.injEq .. ▸ ?_
    exact ⟨by ring, by ring, rfl⟩

/-- Witness instantiating `editText_retimes_words` on the spec §8 editText
example. -/
theorem editText_retimes_words_witness :
    0 < exEditSegments.length ∧
    splitWS (trimChars "a b c".toList) ≠ [] ∧
    (handleSaveEdit exEditSegments 0 "a b c".toList)[0]? =
      some { startMs := 0, endMs := 3000, text := "a b c".toList,
             words := [{ startMs := 0, endMs := 1000, text := "a".toList },
                       { startMs := 1000, endMs := 2000,
                         text := "b".toList },
                       { startMs := 2000, endMs := 3000,
                         text := "c".toList }] } := by
  refine ⟨by decide, by decide, ?_⟩
  have h0 := editText_retimes_words.2.1 exEditSegments 0 (by decide)
    "a b c".toList (by decide)
  rw [h0.1]
  decide

theorem editedSegment_words_texts (seg : CaptionSegment) (t : List Char) :
    (editedSegment seg t).words.map WordSpan.text = splitWS t := by
  simp only [editedSegment, List.map_map]
  show (splitWS t).enum.map Prod.snd = splitWS t
  exact List.enum_map_snd _

/-- C4 (amended): the space-join text invariant is preserved by
`shiftWordToNext` and `shiftWordToPrev` for every argument, and by
`editText` whenever the trimmed new text equals the space-join of its own
whitespace tokens (that is, its internal whitespace consists of single
spaces). -/
theorem text_join_invariant (s : List CaptionSegment)
    (hs : ∀ seg ∈ s, textConsistent seg) :
    (∀ i : Nat, ∀ seg ∈ moveLastWordToNext s i, textConsistent seg) ∧
    (∀ i : Nat, ∀ seg ∈ moveFirstWordToPrev s i, textConsistent seg) ∧
    (∀ (i : Nat) (t : List Char),
      List.intercalate [' '] (splitWS (trimChars t)) = trimChars t →
      ∀ seg ∈ handleSaveEdit s i t, textConsistent seg) := by
  refine ⟨?_, ?_, ?_⟩
  · intro i seg hseg
    by_cases h : i + 1 < s.length
    · cases hw : s[i].words.getLast? with
      | none =>
        rw [moveLastWordToNext_noWords s i h (by simpa using hw)] at hseg
        exact hs seg hseg
      | some w =>
        rw [moveLastWordToNext_active s i h w hw,
          set_set_decomp s i _ _ h] at hseg
        rcases List.mem_append.mp hseg with hmem | hmem
        · exact hs seg (List.take_subset i s hmem)
        · rcases List.mem_cons.mp hmem with rfl | hmem
          · rfl
          · rcases List.mem_cons.mp hmem with rfl | hmem
            · rfl
            · exact hs seg (List.drop_subset (i + 2) s hmem)
    · rw [moveLastWordToNext_oob s i (by omega)] at hseg
      exact hs seg hseg
  · intro i seg hseg
    cases i with
    | zero =>
      rw [moveFirstWordToPrev_first] at hseg
      exact hs seg hseg
    | succ k =>
      by_cases h : k + 1 < s.length
      · cases hw : s[k + 1].words with
        | nil =>
          rw [moveFirstWordToPrev_noWords s (k + 1) (by omega) h hw] at hseg
          exact hs seg hseg
        | cons w rest =>
          rw [moveFirstWordToPrev_active s (k + 1) (by omega) h w rest hw]
            at hseg
          simp only [Nat.add_sub_cancel] at hseg
          rw [set_set_decomp s k _ _ h] at hseg
          rcases List.mem_append.mp hseg with hmem | hmem
          · exact hs seg (List.take_subset k s hmem)
          · rcases List.mem_cons.mp hmem with rfl | hmem
            · rfl
            · rcases List.mem_cons.mp hmem with rfl | hmem
              · rfl
              · exact hs seg (List.drop_subset (k + 2) s hmem)
      · rw [moveFirstWordToPrev_oob s (k + 1) (by omega)] at hseg
        exact hs seg hseg
  · intro i t htext seg hseg
    by_cases h : i < s.length
    · by_cases ht : trimChars t = []
      · rw [handleSaveEdit_empty s i t ht] at hseg
        exact hs seg hseg
      · rw [handleSaveEdit_active s i t h ht, set_decomp s i _ h] at hseg
        rcases List.mem_append.mp hseg with hmem | hmem
        · exact hs seg (List.take_subset i s hmem)
        · rcases List.mem_cons.mp hmem with rfl | hmem
          · show (editedSegment s[i] (trimChars t)).text =
              joinWords (editedSegment s[i] (trimChars t)).words
            rw [joinWords, editedSegment_words_texts, htext]
            rfl
          · exact hs seg (List.drop_subset (i + 1) s hmem)
    · rw [handleSaveEdit_oob s i t (by omega)] at hseg
      exact hs seg hseg

/-- C4 as stated is false: on a sequence satisfying the text invariant,
`editText` with "a  b" (two spaces) produces a segment whose `text` is
"a  b" while the space-join of its words' texts is "a b". -/
theorem editText_breaks_text_join :
    (∀ seg ∈ cexUnitSegment, textConsistent seg) ∧
    ¬ (∀ seg ∈ handleSaveEdit cexUnitSegment 0 "a  b".toList,
        textConsistent seg) :=
  ⟨by decide, by decide⟩

/-- Witness instantiating `text_join_invariant` on the spec §8 example
with edit text "a b". -/
theorem text_join_invariant_witness :
    (∀ seg ∈ exSegments, textConsistent seg) ∧
    List.intercalate [' '] (splitWS (trimChars "a b".toList)) =
      trimChars "a b".toList ∧
    (∀ seg ∈ handleSaveEdit exSegments 0 "a b".toList,
      textConsistent seg) :=
  ⟨by decide, by decide,
    (text_join_invariant exSegments (by decide)).2.2 0 "a b".toList
      (by decide)⟩

theorem intTimes_iff_exists (q : ℚ) :
    intTimes q ↔ ∃ z : ℤ, q = (z : ℚ) := by
  constructor
  · intro h
    exact ⟨q.num, ((Rat.den_eq_one_iff q).mp h).symm⟩
  · rintro ⟨z, rfl⟩
    exact Rat.den_intCast z

theorem intTimes_add {a b : ℚ} (ha : intTimes a) (hb : intTimes b) :
    intTimes (a + b) := by
  rw [intTimes_iff_exists] at ha hb ⊢
  obtain ⟨x, rfl⟩ := ha
  obtain ⟨y, rfl⟩ := hb
  exact ⟨x + y, by push_cast; ring⟩

theorem intTimes_mul {a b : ℚ} (ha : intTimes a) (hb : intTimes b) :
    intTimes (a * b) := by
  rw [intTimes_iff_exists] at ha hb ⊢
  obtain ⟨x, rfl⟩ := ha
  obtain ⟨y, rfl⟩ := hb
  exact ⟨x * y, by push_cast; ring⟩

theorem intTimes_natCast (n : ℕ) : intTimes (n : ℚ) := by
  rw [intTimes_iff_exists]
  exact ⟨n, by push_cast; ring⟩

theorem allInt_moveLastWordToNext (s : List CaptionSegment)
    (hall : allInt s) (i : Nat) : allInt (moveLastWordToNext s i) := by
  by_cases h : i + 1 < s.length
  · cases hw : s[i].words.getLast? with
    | none =>
      rw [moveLastWordToNext_noWords s i h (by simpa using hw)]
      exact hall
    | some w =>
      have hA := hall _ (List.getElem_mem (show i < s.length by omega))
      have hB := hall _ (List.getElem_mem h)
      have hwmem : w ∈ s[i].words := List.mem_of_getLast?_eq_some hw
      rw [moveLastWordToNext_active s i h w hw, set_set_decomp s i _ _ h]
      intro seg hseg
      rcases List.mem_append.mp hseg with hmem | hmem
      · exact hall seg (List.take_subset i s hmem)
      · rcases List.mem_cons.mp hmem with rfl | hmem
        · refine ⟨hA.1, ?_, ?_⟩
          · show intTimes (((s[i].words.dropLast.getLast?).map
              WordSpan.endMs).getD s[i].startMs)
            cases hdl : s[i].words.dropLast.getLast? with
            | none => exact hA.1
            | some u =>
              have humem : u ∈ s[i].words :=
                List.dropLast_subset _ (List.mem_of_getLast?_eq_some hdl)
              exact (hA.2.2 u humem).2
          · intro v hv
            exact hA.2.2 v (List.dropLast_subset _ hv)
        · rcases List.mem_cons.mp hmem with rfl | hmem
          · refine ⟨(hA.2.2 w hwmem).1, hB.2.1, ?_⟩
            intro v hv
            rcases List.mem_cons.mp hv with rfl | hv
            · exact hA.2.2 v hwmem
            · exact hB.2.2 v hv
          · exact hall seg (List.drop_subset (i + 2) s hmem)
  · rw [moveLastWordToNext_oob s i (by omega)]
    exact hall

theorem allInt_moveFirstWordToPrev (s : List CaptionSegment)
    (hall : allInt s) (i : Nat) : allInt (moveFirstWordToPrev s i) := by
  cases i with
  | zero =>
    rw [moveFirstWordToPrev_first]
    exact hall
  | succ k =>
    by_cases h : k + 1 < s.length
    · cases hw : s[k + 1].words with
      | nil =>
        rw [moveFirstWordToPrev_noWords s (k + 1) (by omega) h hw]
        exact hall
      | cons w rest =>
        have hP := hall _ (List.getElem_mem (show k < s.length by omega))
        have hC := hall _ (List.getElem_mem h)
        have hwmem : w ∈ s[k + 1].words := by
          rw [hw]
          exact List.mem_cons_self _ _
        rw [moveFirstWordToPrev_active s (k + 1) (by omega) h w rest hw]
        simp only [Nat.add_sub_cancel]
        rw [set_set_decomp s k _ _ h]
        intro seg hseg
        rcases List.mem_append.mp hseg with hmem | hmem
        · exact hall seg (List.take_subset k s hmem)
        · rcases List.mem_cons.mp hmem with rfl | hmem
          · refine ⟨hP.1, (hC.2.2 w hwmem).2, ?_⟩
            intro v hv
            rcases List.mem_append.mp hv with hv | hv
            · exact hP.2.2 v hv
            · rcases List.mem_cons.mp hv with rfl | hv
              · exact hC.2.2 v hwmem
              · simp at hv
          · rcases List.mem_cons.mp hmem with rfl | hmem
            · refine ⟨?_, hC.2.1, ?_⟩
              · show intTimes (((rest.head?).map WordSpan.startMs).getD
                  s[k + 1].endMs)
                cases hh : rest.head? with
                | none => exact hC.2.1
                | some v =>
                  have hvmem : v ∈ s[k + 1].words := by
                    rw [hw]
                    exact List.mem_cons_of_mem _ (List.mem_of_mem_head? hh)
                  exact (hC.2.2 v hvmem).1
              · intro v hv
                have hvmem : v ∈ s[k + 1].words := by
                  rw [hw]
                  exact List.mem_cons_of_mem _ hv
                exact hC.2.2 v hvmem
            · exact hall seg (List.drop_subset (k + 2) s hmem)
    · rw [moveFirstWordToPrev_oob s (k + 1) (by omega)]
      exact hall

/-- C7 (amended): `shiftWordToNext` and `shiftWordToPrev` preserve the
integrality of every timestamp; `editText` preserves it whenever the
per-word duration `duration / N` is itself an integer; and the wire
envelope built by `handleBurn` always carries integer timestamps because
every value is rounded.  (As stated, the claim fails: `editText` divides
without rounding, see `editText_creates_fractional_timestamps`.) -/
theorem timestamps_integrality (s : List CaptionSegment)
    (hall : allInt s) :
    (∀ i : Nat, allInt (moveLastWordToNext s i)) ∧
    (∀ i : Nat, allInt (moveFirstWordToPrev s i)) ∧
    (∀ (i : Nat) (h : i < s.length) (t : List Char),
      intTimes ((s[i].endMs - s[i].startMs) /
        ((splitWS (trimChars t)).length : ℚ)) →
      allInt (handleSaveEdit s i t)) ∧
    (∀ u : List CaptionSegment, allInt (burnEnvelopeSegments u)) := by
  refine ⟨allInt_moveLastWordToNext s hall,
    allInt_moveFirstWordToPrev s hall, ?_, ?_⟩
  · intro i h t hdiv
    by_cases ht : trimChars t = []
    · rw [handleSaveEdit_empty s i t ht]
      exact hall
    · have hA := hall _ (List.getElem_mem h)
      rw [handleSaveEdit_active s i t h ht, set_decomp s i _ h]
      intro seg hseg
      rcases List.mem_append.mp hseg with hmem | hmem
      · exact hall seg (List.take_subset i s hmem)
      · rcases List.mem_cons.mp hmem with rfl | hmem
        · refine ⟨hA.1, hA.2.1, ?_⟩
          intro v hv
          simp only [editedSegment, List.mem_map] at hv
          obtain ⟨p, hp, rfl⟩ := hv
          constructor
          · exact intTimes_add hA.1
              (intTimes_mul (intTimes_natCast p.1) hdiv)
          · refine intTimes_add hA.1 (intTimes_mul ?_ hdiv)
            have : ((p.1 : ℚ) + 1) = ((p.1 + 1 : ℕ) : ℚ) := by push_cast; ring
            rw [this]
            exact intTimes_natCast (p.1 + 1)
        · exact hall seg (List.drop_subset (i + 1) s hmem)
  · intro u seg hseg
    simp only [burnEnvelopeSegments, List.mem_map] at hseg
    obtain ⟨x, hx, rfl⟩ := hseg
    refine ⟨Rat.den_intCast _, Rat.den_intCast _, ?_⟩
    intro v hv
    simp only [roundSegment, List.mem_map] at hv
    obtain ⟨y, hy, rfl⟩ := hv
    exact ⟨Rat.den_intCast _, Rat.den_intCast _⟩

/-- C7 as stated is false: on an all-integer single-segment sequence
spanning 0..1000, `editText` with three words produces word timestamps
with denominator 3. -/
theorem editText_creates_fractional_timestamps :
    allInt cexUnitSegment ∧
    ¬ allInt (handleSaveEdit cexUnitSegment 0 "a b c".toList) :=
  ⟨by decide, by decide⟩

/-- Witness instantiating `timestamps_integrality` on the spec §8 editText
example, where the three-word duration 3000 is divisible by 3. -/
theorem timestamps_integrality_witness :
    allInt exEditSegments ∧ 0 < exEditSegments.length ∧
    intTimes ((exEditSegments[0].endMs - exEditSegments[0].startMs) /
      ((splitWS (trimChars "a b c".toList)).length : ℚ)) ∧
    allInt (handleSaveEdit exEditSegments 0 "a b c".toList) :=
  ⟨by decide, by decide, by decide,
    (timestamps_integrality exEditSegments (by decide)).2.2.1 0 (by decide)
      "a b c".toList (by decide)⟩

/-- C8 (amended): the `requestId` tagging a call is supplied by the caller
(generated at the call site with `crypto.randomUUID()` and forwarded
unchanged through the IPC payload by the `core:call` handler), and
dispatching an identifier already present in the pending table is an
error, while a fresh identifier is inserted. -/
theorem requestId_caller_supplied_and_duplicates_rejected :
    (∀ p : CoreCallPayload, (coreCallForward p).2.2 = p.requestId) ∧
    (∀ (pending : List String) (rid : String), rid ∈ pending →
      sidecarDispatch pending rid = DispatchOutcome.duplicateIdError) ∧
    (∀ (pending : List String) (rid : String), rid ∉ pending →
      sidecarDispatch pending rid = DispatchOutcome.accepted
        (rid :: pending)) := by
  refine ⟨fun p => rfl, ?_, ?_⟩
  · intro pending rid h
    simp [sidecarDispatch, h]
  · intro pending rid h
    simp [sidecarDispatch, h]

/-- C8 as stated is false: the identifier tagging a dispatched call is not
internally generated by the bridge — two payloads differing only in their
caller-supplied `requestId` reach the sidecar with different tags, so the
tag is exactly the caller-supplied value. -/
theorem requestId_depends_on_caller_payload :
    (coreCallForward { method := "transcribe", params := "video.mp4",
                       requestId := "id-A" }).2.2 ≠
    (coreCallForward { method := "transcribe", params := "video.mp4",
                       requestId := "id-B" }).2.2 := by
  decide

/-- Witness instantiating
`requestId_caller_supplied_and_duplicates_rejected` on a concrete pending
table. -/
theorem requestId_caller_supplied_witness :
    ("r1" : String) ∈ ["r1", "r0"] ∧
    sidecarDispatch ["r1", "r0"] "r1" = DispatchOutcome.duplicateIdError ∧
    ("r2" : String) ∉ ["r1", "r0"] ∧
    sidecarDispatch ["r1", "r0"] "r2" = DispatchOutcome.accepted
      ["r2", "r1", "r0"] :=
  ⟨by decide,
    requestId_caller_supplied_and_duplicates_rejected.2.1 ["r1", "r0"] "r1"
      (by decide),
    by decide,
    requestId_caller_supplied_and_duplicates_rejected.2.2 ["r1", "r0"] "r2"
      (by decide)⟩
